import Mathlib

/-!
Verification development for the timeline-synthesis engine of the
astrofinance short-video generator (`generate_short.py`).

Python strings are modelled as `List Char` (Python `len` counts code
points, matching `List.length`).  Durations in seconds are modelled as
exact rationals `ℚ`; the section-time computations of the source are
integer valued and are modelled on `ℕ`.  Python `int(x)` on a
non-negative float expression `(a / b) * c` is modelled as the exact
floor `a * c / b` in natural-number division.

All recursive definitions are structural (some use an explicit fuel
argument equal to an obvious upper bound on the number of loop
iterations), so every definition is executable and kernel-reducible.
-/

/-! ## Line wrapper

`generate_short.py`, `create_text_chunks` lines 300-305: the text is
split on existing newlines, blank segments are dropped, and every other
segment is wrapped with Python `textwrap.wrap(line, width=35)`.

`textwrap.wrap` is Python standard-library code (not part of this
repository); it is modelled here after CPython's `TextWrapper` with its
default options (`replace_whitespace=True`, `drop_whitespace=True`,
`break_long_words=True`): each whitespace character is first replaced by
a single space, the segment is split into maximal runs of spaces and
non-spaces, and the runs are packed greedily into lines of at most
`width` characters; a run longer than the remaining space of a line is
broken at the width boundary.  (The `expand_tabs` tab-stop expansion and
the `break_on_hyphens` hyphen rule are not modelled; the repository's
inputs contain neither tabs nor hyphen-break candidates.)
-/

/-- Python whitespace test (`string.whitespace`): space, tab, newline,
carriage return, vertical tab, form feed. -/
def isPyWs (c : Char) : Bool :=
  c == ' ' || c == '\t' || c == '\n' || c == '\r' ||
    c == Char.ofNat 11 || c == Char.ofNat 12

/-- Prepend a character to the first segment of a split result
(helper for `splitLinesNL`). -/
def consHead (c : Char) : List (List Char) → List (List Char)
  | [] => [[c]]
  | l :: ls => (c :: l) :: ls

/-- Python `text.split` with separator a single newline: splits on every
newline and keeps empty segments (`"".split` gives one empty segment). -/
def splitLinesNL : List Char → List (List Char)
  | [] => [[]]
  | c :: cs =>
    if c = '\n' then [] :: splitLinesNL cs
    else consHead c (splitLinesNL cs)

/-- Maximal runs of spaces / non-spaces, the chunk list CPython's
`_split` produces after whitespace replacement. -/
def splitRuns : List Char → List (List Char)
  | [] => []
  | c :: cs =>
    match splitRuns cs with
    | [] => [[c]]
    | [] :: rs => [c] :: rs
    | (d :: r) :: rs =>
      if (c == ' ') == (d == ' ') then (c :: d :: r) :: rs
      else [c] :: (d :: r) :: rs

/-- Total number of characters in a list of chunks (CPython's
`cur_len`). -/
def sumLen (l : List (List Char)) : ℕ := (l.map List.length).sum

/-- The greedy inner loop of CPython `_wrap_chunks`: keep taking chunks
while they fit in the current line. -/
def greedyTake (width : ℕ) : ℕ → List (List Char) → List (List Char) × List (List Char)
  | _, [] => ([], [])
  | curLen, c :: rest =>
    if curLen + c.length ≤ width then
      let p := greedyTake width (curLen + c.length) rest
      (c :: p.1, p.2)
    else ([], c :: rest)

/-- A chunk consisting solely of whitespace (after replacement, solely
of spaces); CPython's `chunk.strip() == ''`. -/
def wsChunk (c : List Char) : Bool := c.all (· == ' ')

/-- Drop a trailing whitespace chunk from the current line
(`drop_whitespace` handling at the end of a line). -/
def dropTrailingWs (cur : List (List Char)) : List (List Char) :=
  match cur.getLast? with
  | some l => if wsChunk l then cur.dropLast else cur
  | none => cur

/-- One line of CPython `_wrap_chunks`: greedily fill the line, then
apply the `break_long_words` handling of `_handle_long_word` when the
next chunk is longer than the whole width.  Returns the line's chunks
(before the trailing-whitespace drop) and the remaining chunks. -/
def lineAndRest (width : ℕ) (chunks : List (List Char)) :
    List (List Char) × List (List Char) :=
  let g := greedyTake width 0 chunks
  match g.2 with
  | c :: tail =>
    if width < c.length then
      (g.1 ++ [c.take (width - sumLen g.1)], c.drop (width - sumLen g.1) :: tail)
    else (g.1, c :: tail)
  | [] => (g.1, [])

/-- One outer iteration of `_wrap_chunks`: build the current line,
drop its trailing whitespace chunk, emit it when non-empty, and continue
with `rec` on the remaining chunks. -/
def wrapStep (width : ℕ) (rec : Bool → List (List Char) → List (List Char))
    (noLineYet : Bool) (cl : List (List Char)) : List (List Char) :=
  match cl with
  | [] => []
  | c1 :: rest1 =>
    let cur := dropTrailingWs (lineAndRest width (c1 :: rest1)).1
    let restLines := rec (noLineYet && cur.isEmpty) (lineAndRest width (c1 :: rest1)).2
    if cur.isEmpty then restLines else cur.flatten :: restLines

/-- CPython `_wrap_chunks` with the default options.  `noLineYet` is
true while no line has been emitted (CPython drops a leading whitespace
chunk only once `lines` is non-empty).  The fuel argument bounds the
number of outer loop iterations; every iteration either consumes a chunk
or consumes at least one character of the leading over-long chunk, so
`character count + chunk count + 1` is always enough fuel. -/
def wrapChunksAux (width : ℕ) : ℕ → Bool → List (List Char) → List (List Char)
  | 0, _, _ => []
  | fuel + 1, noLineYet, chunks =>
    wrapStep width (wrapChunksAux width fuel) noLineYet
      (match chunks with
       | c :: rest => if noLineYet = false && wsChunk c then rest else c :: rest
       | [] => [])

/-- Python `textwrap.wrap(text, width)` with default options (see module
comment for the modelled option set). -/
def pyWrap (width : ℕ) (text : List Char) : List (List Char) :=
  let replaced := text.map (fun c => if isPyWs c then ' ' else c)
  wrapChunksAux width (text.length + (splitRuns replaced).length + 1) true
    (splitRuns replaced)

/-- `create_text_chunks` lines 302-305: split on author newlines, keep
the segments that are non-empty after `strip()` (i.e. contain a
non-whitespace character), wrap each to width 35, and concatenate. -/
def wrappedLines (text : List Char) : List (List Char) :=
  ((splitLinesNL text).filter (fun l => l.any (fun c => !isPyWs c))).flatMap (pyWrap 35)

/-! ## Text chunker

`create_text_chunks` lines 307-352.  Chunks are grouped lists of wrapped
lines; the displayed chunk text is the lines joined with newlines
(`"\n".join(...)`).  In the multi-chunk branch the source recomputes the
line count of a chunk as `len(chunk.split('\n'))`, which equals the
number of joined lines because every chunk there is a non-empty list of
newline-free lines. -/

/-- Slices of 9 lines, `wrapped_lines[i:i+9]` for `i in
range(0, len, 9)`.  Fuel is the list length (each step removes at least
one element). -/
def chunksOf9 : ℕ → List (List Char) → List (List (List Char))
  | 0, _ => []
  | _ + 1, [] => []
  | fuel + 1, c :: cs => ((c :: cs).take 9) :: chunksOf9 fuel ((c :: cs).drop 9)

/-- The chunk-grouping policy of `create_text_chunks` lines 309-319:
one chunk for at most 8 lines, a two-way split at `L // 2` for at most
16 lines, and 9-line slices otherwise. -/
def mkChunks (lines : List (List Char)) : List (List (List Char)) :=
  if lines.length ≤ 8 then [lines]
  else if lines.length ≤ 16 then
    [lines.take (lines.length / 2), lines.drop (lines.length / 2)]
  else chunksOf9 lines.length lines

/-- The multi-chunk timing loop, lines 333-350: each chunk lasts
`max(3.0, (lines_in_chunk / total_lines_all) * total_duration)` and
starts at the running `current_time`.  Produces
`(displayed text, start offset, duration)` per chunk. -/
def timeChunksC (L S : ℚ) : ℚ → List (List (List Char)) → List (List Char × ℚ × ℚ)
  | _, [] => []
  | t, c :: rest =>
    let d := max 3 ((c.length : ℚ) / L * S)
    (List.intercalate ['\n'] c, t, d) :: timeChunksC L S (t + d) rest

/-- Chunk timing for an already wrapped line list: a single chunk
receives the full `total_duration` (lines 323-331); otherwise the
proportional rule above applies. -/
def chunkLines (lines : List (List Char)) (totalDuration : ℚ) :
    List (List Char × ℚ × ℚ) :=
  match mkChunks lines with
  | [c] => [(List.intercalate ['\n'] c, 0, totalDuration)]
  | cs => timeChunksC ((cs.map List.length).sum : ℚ) totalDuration 0 cs

/-- `create_text_chunks(text, font_size, total_duration)` restricted to
its timing/content outcome (font size does not influence timing). -/
def createTextChunks (text : List Char) (totalDuration : ℚ) :
    List (List Char × ℚ × ℚ) :=
  chunkLines (wrappedLines text) totalDuration

/-! ## Duration allocator

`create_short` lines 371-391.  `AVAILABLE_TIME = 45`; floors 16/12/12;
the three content strings are weighted by character count.  Python's
`int((length / total) * 45)` truncates the non-negative float towards
zero, i.e. (in exact arithmetic) takes `length * 45 / total` in
natural-number floor division. -/

/-- The `(horo_time, wealth_time, health_time)` computation of
`create_short`.  When the total content length is zero the fixed
defaults `(16, 12, 12)` are used. -/
def allocTimes (horoLen wealthLen healthLen : ℕ) : ℕ × ℕ × ℕ :=
  let total := horoLen + wealthLen + healthLen
  if 0 < total then
    let horo := max 16 (horoLen * 45 / total)
    let wealth := max 12 (wealthLen * 45 / total)
    let health := max 12 (45 - horo - wealth)
    (horo, wealth, health)
  else (16, 12, 12)

/-! ## Media looper

`create_short` lines 421-425 (background video) and 517-521 (background
music) contain two copies of the same loop-and-trim computation:
if the source is shorter than `TARGET_DURATION` it is looped
`int(target / source) + 1` times and the concatenation is cut by
`subclip(0, target)`; otherwise the source itself is cut to `target`.
`subclip(0, t)` of a clip of duration `D` yields duration `min D t`. -/

/-- Number of copies of the source asset the code concatenates. -/
def loopCount (sourceDur targetDur : ℚ) : ℤ :=
  if sourceDur < targetDur then ⌊targetDur / sourceDur⌋ + 1 else 1

/-- Duration of the looped-and-trimmed clip the code produces. -/
def loopTrimDuration (sourceDur targetDur : ℚ) : ℚ :=
  if sourceDur < targetDur then
    min ((loopCount sourceDur targetDur : ℚ) * sourceDur) targetDur
  else min sourceDur targetDur

/-- Modelled from the spec (refinement reference, deliberately NOT taken
from the source): the spec's loop-count formula
`loop_count = max(1, ceil(target_duration / source_duration))`. -/
def specLoopCount (sourceDur targetDur : ℚ) : ℤ :=
  max 1 ⌈targetDur / sourceDur⌉

/-- Modelled from the spec (refinement reference, deliberately NOT taken
from the source): the spec's provisional section duration
`max(floor_i, round(weight_i / total_weight * budget))`. -/
def specRoundShare (floorSec weight totalWeight budget : ℕ) : ℤ :=
  max (floorSec : ℤ) (round ((weight * budget : ℚ) / totalWeight))

/-! ## Timeline composition

`create_short` lines 355-512.  A timeline element records its displayed
text, absolute start, duration and vertical position (the visual layer);
the fixed fade envelopes do not influence any claim and are omitted.
The special position `('center', 'center')` of the subscribe block is
encoded as the out-of-band value `-1`. -/

structure Elt where
  content : List Char
  start : ℚ
  dur : ℚ
  y : ℤ
deriving DecidableEq

/-- Vertical layout constants, lines 430-434. -/
def HEADING_Y : ℤ := 100

def TEXT_Y : ℤ := 910

def SIGN_Y : ℤ := HEADING_Y + 60

def DATE_Y : ℤ := SIGN_Y + 130

def HORO_HEADING_Y : ℤ := HEADING_Y - 60

def CENTER_POS : ℤ := -1

/-- The wall-clock inputs `create_short` reads: `datetime.now().weekday()`
(through `get_day_of_week_background`) and the Australian date string
shown on the video.  `get_australian_datetime` is called at line 361 but
is not part of the sources; modelled from the spec: it returns the
current date-time (here: the date display string derived from it),
a wall-clock dependent value. -/
structure Clock where
  weekday : Fin 7
  ausDateDisplay : List Char

/-- `get_day_of_week_background` lines 37-44: weekday names. -/
def days : List (List Char) :=
  ["Monday", "Tuesday", "Wednesday", "Thursday", "Friday", "Saturday",
    "Sunday"].map String.toList

/-- `f"{day_name}_bg.mp4"`. -/
def bgFilenameFor (i : Fin 7) : List Char :=
  days.getD i.val [] ++ "_bg.mp4".toList

/-- `get_day_of_week_background` lines 37-64: today's background if the
file exists, else the configured default background, else failure. -/
def bgVideoPath (clock : Clock) (fileExists : List Char → Bool)
    (defaultBg : List Char) : Option (List Char) :=
  if fileExists (bgFilenameFor clock.weekday) then some (bgFilenameFor clock.weekday)
  else if fileExists defaultBg then some defaultBg
  else none

/-- The underline decoration, `"━" * 20`, line 287. -/
def underlineText : List Char := List.replicate 20 (Char.ofNat 0x2501)

/-- The subscribe block text (decorative emoji omitted), lines 501-508. -/
def subText : List Char := "SUBSCRIBE LIKE SHARE COMMENT".toList

/-- Section heading plus underline (`create_heading` applied and placed
at `HORO_HEADING_Y` / `HORO_HEADING_Y + 100`, started at the section's
global offset with the section's duration). -/
def headingElts (label : List Char) (t dur : ℚ) : List Elt :=
  [⟨label, t, dur, HORO_HEADING_Y⟩,
   ⟨underlineText, t, dur, HORO_HEADING_Y + 100⟩]

/-- The body chunks of one section: each chunk of `create_text_chunks`
is placed at `TEXT_Y` and started at `current_time + chunk.start`
(lines 465-497). -/
def bodyElts (text : List Char) (t : ℚ) (dur : ℚ) : List Elt :=
  (createTextChunks text dur).map (fun x => ⟨x.1, t + x.2.1, x.2.2, TEXT_Y⟩)

/-- One content section: heading, underline, then body chunks. -/
def sectionElems (label text : List Char) (t dur : ℚ) : List Elt :=
  headingElts label t dur ++ bodyElts text t dur

/-- The elements that follow the horoscope section: wealth section,
health section and the subscribe block.  They depend on the three
allotted section times and the text of the two later sections only. -/
def tailElems (wealth health : List Char) (horoT wealthT healthT : ℕ)
    (mainDur : ℚ) : List Elt :=
  sectionElems "Wealth Tips".toList wealth (horoT : ℚ) (wealthT : ℚ) ++
    sectionElems "Health Tips".toList health ((horoT : ℚ) + (wealthT : ℚ)) (healthT : ℚ) ++
    [⟨subText, mainDur, 5, CENTER_POS⟩]

/-- The renderer-facing outcome of `create_short`: chosen background
file, its looped/trimmed duration, the ordered overlay elements, and the
final composite duration (`set_duration(TARGET_DURATION)`). -/
structure Timeline where
  bgFile : List Char
  bgDur : ℚ
  elements : List Elt
  finalDuration : ℚ
deriving DecidableEq

/-- `create_short` lines 355-512 (timeline synthesis; encoding and file
output are outside the model).  Returns `none` when no background video
is available (lines 394-397). -/
def createShort (clock : Clock) (fileExists : List Char → Bool)
    (defaultBg : List Char) (bgSourceDur : ℚ)
    (sign horo wealth health : List Char) : Option Timeline :=
  match bgVideoPath clock fileExists defaultBg with
  | none => none
  | some bg =>
    let times := allocTimes horo.length wealth.length health.length
    let horoT := times.1
    let wealthT := times.2.1
    let healthT := times.2.2
    let mainDur : ℚ := ((horoT + wealthT + healthT : ℕ) : ℚ)
    let elems : List Elt :=
      ([⟨sign, 0, mainDur, SIGN_Y⟩,
        ⟨underlineText, 0, mainDur, SIGN_Y + 100⟩,
        ⟨clock.ausDateDisplay, 0, mainDur, DATE_Y⟩] ++
        sectionElems "Daily Horoscope".toList horo 0 (horoT : ℚ)) ++
        tailElems wealth health horoT wealthT healthT mainDur
    some { bgFile := bg, bgDur := loopTrimDuration bgSourceDur 59,
           elements := elems, finalDuration := 59 }

/-- The timing data of an element: start, duration, layer. -/
def eltTiming (e : Elt) : ℚ × ℚ × ℤ := (e.start, e.dur, e.y)

/-- Number of horoscope body chunks, used to address the element list. -/
def horoChunkCount (horo wealth health : List Char) : ℕ :=
  (createTextChunks horo
    (((allocTimes horo.length wealth.length health.length).1 : ℕ) : ℚ)).length

/-- Chunk triples `(content, start, dur)` run back-to-back from the
given offset: each entry starts where its predecessor ended. -/
def Contiguous : ℚ → List (List Char × ℚ × ℚ) → Prop
  | _, [] => True
  | t, x :: rest => x.2.1 = t ∧ Contiguous (t + x.2.2) rest

/-- Chunk sizes follow the over-16-lines policy: every chunk has exactly
9 lines except the last, which has between 1 and 9. -/
def NinePattern : List (List (List Char)) → Prop
  | [] => True
  | [c] => 1 ≤ c.length ∧ c.length ≤ 9
  | c :: c2 :: rest => c.length = 9 ∧ NinePattern (c2 :: rest)

/-! ## Concrete inputs used in counterexamples and witnesses -/

/-- A Monday clock with a fixed date display. -/
def cexClock : Clock := ⟨0, "12 Oct 2025".toList⟩

/-- A Tuesday clock with the next day's date display. -/
def cexClockTue : Clock := ⟨1, "13 Oct 2025".toList⟩

/-- A file system on which every asset exists. -/
def cexFs : List Char → Bool := fun _ => true

/-- A configured default background asset name. -/
def cexDefaultBg : List Char := "space_bg.mp4".toList

/-- Horoscope text made of 20 one-character author lines
(39 characters in total). -/
def c3Horo : List Char := List.intercalate ['\n'] (List.replicate 20 ['a'])

/-- Wealth text: a single 46-character word. -/
def c3Wealth : List Char := List.replicate 46 'b'

/-- Health text: a single character. -/
def c3Health : List Char := ['c']

/-! ## Helper lemmas -/

lemma last_of_append_single {α : Type _} (l1 l2 : List α) (e : α)
    (h : l2.getLast? = some e) : (l1 ++ l2).getLast? = some e := by
  rw [List.getLast?_append_of_ne_nil]
  · exact h
  · intro hnil
    rw [hnil] at h
    simp at h

lemma getLast?_cons_of {α : Type _} (a : α) (l : List α) (e : α)
    (h : l.getLast? = some e) : (a :: l).getLast? = some e :=
  last_of_append_single [a] l e h

lemma getLast?_deep {α : Type _} (x : α) (l1 l2 l3 l4 l5 l6 : List α) (e : α) :
    (x :: (l1 ++ (l2 ++ (l3 ++ (l4 ++ (l5 ++ (l6 ++ [e]))))))).getLast? = some e := by
  apply getLast?_cons_of
  apply last_of_append_single
  apply last_of_append_single
  apply last_of_append_single
  apply last_of_append_single
  apply last_of_append_single
  apply last_of_append_single
  rfl

lemma allocTimes_pos_eq (hl wl hel : ℕ) (h : 0 < hl + wl + hel) :
    allocTimes hl wl hel =
      (max 16 (hl * 45 / (hl + wl + hel)),
       max 12 (wl * 45 / (hl + wl + hel)),
       max 12 (45 - max 16 (hl * 45 / (hl + wl + hel)) -
         max 12 (wl * 45 / (hl + wl + hel)))) := by
  simp [allocTimes, h]

lemma allocTimes_sum_eq (hl wl hel : ℕ) (h0 : 0 < hl + wl + hel)
    (h33 : (allocTimes hl wl hel).1 + (allocTimes hl wl hel).2.1 ≤ 33) :
    (allocTimes hl wl hel).1 + (allocTimes hl wl hel).2.1 +
      (allocTimes hl wl hel).2.2 = 45 := by
  rw [allocTimes_pos_eq hl wl hel h0] at h33 ⊢
  have hr : max 12 (45 - max 16 (hl * 45 / (hl + wl + hel)) -
      max 12 (wl * 45 / (hl + wl + hel))) =
      45 - max 16 (hl * 45 / (hl + wl + hel)) -
        max 12 (wl * 45 / (hl + wl + hel)) := by
    simp only at h33
    exact Nat.max_eq_right (by omega)
  simp only at h33 ⊢
  omega

lemma loopTrim_eq_target (s t : ℚ) (hs : 0 < s) :
    loopTrimDuration s t = t := by
  rw [loopTrimDuration]
  by_cases hlt : s < t
  · rw [if_pos hlt, loopCount, if_pos hlt, min_eq_right]
    have h1 : t / s < (⌊t / s⌋ : ℚ) + 1 := Int.lt_floor_add_one _
    have h2 : t / s * s ≤ ((⌊t / s⌋ : ℚ) + 1) * s := by nlinarith
    rw [div_mul_cancel₀ _ (ne_of_gt hs)] at h2
    push_cast
    linarith
  · rw [if_neg hlt, min_eq_right (le_of_not_lt hlt)]

lemma floor_5912 : (⌊(59 : ℚ) / 12⌋ : ℤ) = 4 := by
  rw [Int.floor_eq_iff]
  norm_num

/-! ## Claims about the duration allocator (C4) and the total (C1) -/

/-- C4 counterexample: the source computes the provisional first-section
duration with Python `int` (truncation), not with rounding.  For content
lengths `(24, 13, 13)` the horoscope share is `24/50 * 45 = 21.6`; the
code allots `21` seconds while the spec's `max(16, round(21.6)) = 22`. -/
theorem allocator_round_cex :
    (allocTimes 24 13 13).1 = 21 ∧ specRoundShare 16 24 50 45 = 22 ∧
      ((allocTimes 24 13 13).1 : ℤ) ≠ specRoundShare 16 24 50 45 := by
  have h : specRoundShare 16 24 50 45 = 22 := by
    rw [specRoundShare]
    push_cast
    have h2 : round ((24 * 45 : ℚ) / 50) = 22 := by
      rw [round_eq]
      norm_num [Int.floor_eq_iff]
    rw [h2]
    decide
  refine ⟨by decide, h, ?_⟩
  rw [h, show (allocTimes 24 13 13).1 = 21 from by decide]
  decide

/-- C4 (amended: the provisional shares of the first two sections are
computed with truncation, `int`, rather than rounding): for any three
section texts with positive total character count, the first two
durations are `max(floor, ⌊share · 45⌋)` in declared order, the last
section gets the remainder `45 - dur₁ - dur₂` clamped up to its floor
12, all floors are respected, and whenever the remainder is at least the
last floor the three durations sum to the 45-second budget exactly. -/
theorem allocator_truncated_share (hl wl hel : ℕ) (h0 : 0 < hl + wl + hel) :
    (allocTimes hl wl hel).1 = max 16 (hl * 45 / (hl + wl + hel)) ∧
    (allocTimes hl wl hel).2.1 = max 12 (wl * 45 / (hl + wl + hel)) ∧
    (allocTimes hl wl hel).2.2 =
      max 12 (45 - (allocTimes hl wl hel).1 - (allocTimes hl wl hel).2.1) ∧
    16 ≤ (allocTimes hl wl hel).1 ∧ 12 ≤ (allocTimes hl wl hel).2.1 ∧
    12 ≤ (allocTimes hl wl hel).2.2 ∧
    (12 ≤ 45 - (allocTimes hl wl hel).1 - (allocTimes hl wl hel).2.1 →
      (allocTimes hl wl hel).1 + (allocTimes hl wl hel).2.1 +
        (allocTimes hl wl hel).2.2 = 45) := by
  rw [allocTimes_pos_eq hl wl hel h0]
  refine ⟨rfl, rfl, rfl, le_max_left _ _, le_max_left _ _, le_max_left _ _, ?_⟩
  intro h12
  simp only at h12 ⊢
  have hr := Nat.max_eq_right h12
  omega

/-- Witness for C4 at the spec's end-to-end lengths `(145, 98, 87)`:
durations `(19, 13, 13)` — floors bind on the last two — summing to 45. -/
theorem allocator_truncated_share_witness :
    (0 < 145 + 98 + 87) ∧
      ((allocTimes 145 98 87).1 + (allocTimes 145 98 87).2.1 +
        (allocTimes 145 98 87).2.2 = 45) :=
  ⟨by decide, (allocator_truncated_share 145 98 87 (by decide)).2.2.2.2.2.2 (by decide)⟩

/-! ## Claims about the composed total duration (C1) -/

/-- C1 counterexample: for the content `("a", "b", "c")` the allotted
section durations are `(16, 15, 14)`; their sum plus the 5-second
call-to-action is 50, not the 59-second target, and the last timeline
element (the subscribe block) ends at 50 ≠ 59. -/
theorem section_sum_cex :
    (allocTimes 1 1 1).1 + (allocTimes 1 1 1).2.1 + (allocTimes 1 1 1).2.2 + 5 = 50 ∧
    (50 : ℕ) ≠ 59 ∧
    ((createShort cexClock cexFs cexDefaultBg 59 ['s'] ['a'] ['b'] ['c']).map
        (fun t => t.elements.getLast?.map (fun e => e.start + e.dur))) =
      some (some 50) ∧
    ((50 : ℚ) ≠ 59) := by
  refine ⟨by decide, by decide, ?_, by norm_num⟩
  have hbg : bgVideoPath cexClock cexFs cexDefaultBg =
      some ("Monday_bg.mp4".toList) := by decide
  have halloc : allocTimes 1 1 1 = (16, 15, 14) := by decide
  rw [createShort, hbg]
  simp only [List.length_singleton, halloc]
  simp [tailElems, sectionElems]
  exact ⟨⟨subText, 45, 5, CENTER_POS⟩, getLast?_deep _ _ _ _ _ _ _ _, by norm_num⟩

/-- C1 (amended: the three section durations plus the call-to-action sum
to 50 seconds — `AVAILABLE_TIME = 45` plus `SUBSCRIBE_DURATION = 5` —
not to the 59-second target; the last overlay element ends at 50 while
the composite's duration is separately forced to 59, leaving a
background-only tail): whenever a timeline is produced, the content is
non-empty and the first two allotted times total at most 33 (so the last
section's floor does not overflow the 45-second budget), the section
durations sum to 45, the last element is the subscribe block ending at
50, and the final composite duration is 59. -/
theorem section_sum_plus_cta (clock : Clock) (fileExists : List Char → Bool)
    (defaultBg : List Char) (bgSourceDur : ℚ) (sign horo wealth health : List Char)
    (t : Timeline)
    (hEq : createShort clock fileExists defaultBg bgSourceDur sign horo wealth health =
      some t)
    (h0 : 0 < horo.length + wealth.length + health.length)
    (h33 : (allocTimes horo.length wealth.length health.length).1 +
      (allocTimes horo.length wealth.length health.length).2.1 ≤ 33) :
    (allocTimes horo.length wealth.length health.length).1 +
      (allocTimes horo.length wealth.length health.length).2.1 +
      (allocTimes horo.length wealth.length health.length).2.2 = 45 ∧
    t.elements.getLast? = some ⟨subText, 45, 5, CENTER_POS⟩ ∧
    ((45 : ℚ) + 5 = 50) ∧ t.finalDuration = 59 ∧ ((50 : ℚ) ≠ 59) := by
  have hsum := allocTimes_sum_eq _ _ _ h0 h33
  cases hbv : bgVideoPath clock fileExists defaultBg with
  | none =>
    rw [createShort, hbv] at hEq
    exact Option.noConfusion hEq
  | some bg =>
    rw [createShort, hbv] at hEq
    simp only [Option.some.injEq] at hEq
    subst hEq
    refine ⟨hsum, ?_, by norm_num, rfl, by norm_num⟩
    simp only [tailElems, sectionElems, hsum]
    simp
    exact getLast?_deep _ _ _ _ _ _ _ _

/-! ## Claims about the media looper (C2) -/

/-- C2 counterexample: for a 1-second source and 59-second target the
code concatenates `int(59/1) + 1 = 60` copies, while the spec's formula
`max(1, ceil(59/1))` gives 59; the two disagree whenever the source
duration exactly divides the target. -/
theorem media_loop_formula_cex :
    loopCount 1 59 = 60 ∧ specLoopCount 1 59 = 59 ∧
      loopCount 1 59 ≠ specLoopCount 1 59 := by
  have h1 : loopCount 1 59 = 60 := by
    rw [loopCount, if_pos (by norm_num : (1 : ℚ) < 59)]
    norm_num
  have h2 : specLoopCount 1 59 = 59 := by
    rw [specLoopCount]
    norm_num
  refine ⟨h1, h2, ?_⟩
  rw [h1, h2]
  decide

/-- C2 (amended: the code's loop count is `⌊target/source⌋ + 1` when the
source is shorter than the target and 1 otherwise; this agrees with the
spec's `max(1, ceil(target/source))` except when the source duration
exactly divides the target, where the code uses one extra copy): for
positive source and target durations the looped clip is always trimmed
to exactly the target duration — applied to both the background video
and the background music, which share this computation — and in
particular a 12-second source against the 59-second target is looped 5
times and trimmed to 59. -/
theorem media_loop_trim (s t : ℚ) (hs : 0 < s) (ht : 0 < t) :
    loopTrimDuration s t = t ∧
    (s < t → (¬ ∃ n : ℤ, (n : ℚ) * s = t) → loopCount s t = specLoopCount s t) ∧
    (t ≤ s → loopCount s t = 1) ∧
    loopCount 12 59 = 5 ∧ loopTrimDuration 12 59 = 59 := by
  refine ⟨loopTrim_eq_target s t hs, ?_, ?_, ?_,
    loopTrim_eq_target 12 59 (by norm_num)⟩
  · intro hlt hnd
    rw [loopCount, if_pos hlt, specLoopCount]
    have hx : ¬ ∃ n : ℤ, (n : ℚ) = t / s := by
      rintro ⟨n, hn⟩
      refine hnd ⟨n, ?_⟩
      rw [hn]
      exact div_mul_cancel₀ t (ne_of_gt hs)
    have h1 : (⌊t / s⌋ : ℚ) < t / s := by
      rcases lt_or_eq_of_le (Int.floor_le (t / s)) with h2 | h2
      · exact h2
      · exact absurd ⟨⌊t / s⌋, h2⟩ hx
    have h2 : ⌊t / s⌋ < ⌈t / s⌉ := by
      rw [Int.lt_ceil]
      exact h1
    have h3 : ⌈t / s⌉ ≤ ⌊t / s⌋ + 1 := by
      apply Int.ceil_le.mpr
      push_cast
      exact (Int.lt_floor_add_one _).le
    have h4 : 0 ≤ ⌊t / s⌋ := Int.floor_nonneg.mpr (le_of_lt (div_pos ht hs))
    have hceil : ⌈t / s⌉ = ⌊t / s⌋ + 1 := by omega
    rw [hceil, max_eq_right (by omega)]
  · intro hts
    rw [loopCount, if_neg (not_lt.mpr hts)]
  · rw [loopCount, if_pos (by norm_num : (12 : ℚ) < 59), floor_5912]
    decide

/-- Witness for C2 at the spec's own instance `(12, 59)`. -/
theorem media_loop_trim_witness :
    loopTrimDuration 12 59 = 59 ∧ loopCount 12 59 = 5 :=
  ⟨(media_loop_trim 12 59 (by norm_num) (by norm_num)).1,
   (media_loop_trim 12 59 (by norm_num) (by norm_num)).2.2.2.1⟩

/-- Witness for C1 at the content `("a", "b", "c")` (first two allotted
times `16 + 15 = 31 ≤ 33`). -/
theorem section_sum_plus_cta_witness :
    ∃ t, createShort cexClock cexFs cexDefaultBg 59 ['s'] ['a'] ['b'] ['c'] = some t ∧
      t.finalDuration = 59 ∧
      t.elements.getLast? = some ⟨subText, 45, 5, CENTER_POS⟩ := by
  cases hEq : createShort cexClock cexFs cexDefaultBg 59 ['s'] ['a'] ['b'] ['c'] with
  | none =>
    refine absurd hEq ?_
    rw [createShort,
      show bgVideoPath cexClock cexFs cexDefaultBg = some ("Monday_bg.mp4".toList)
        from by decide]
    simp
  | some t =>
    have h := section_sum_plus_cta cexClock cexFs cexDefaultBg 59 ['s'] ['a'] ['b'] ['c']
      t hEq (by decide) (by decide)
    exact ⟨t, rfl, h.2.2.2.1, h.2.1⟩

/-! ## Claims about clock independence (C9) -/

/-- C9 counterexample: varying only the wall clock (a Monday run versus
a Tuesday run, with the Tuesday date display) changes the produced
timeline — the selected background file differs (and so does the date
element's text). -/
theorem clock_changes_timeline_cex :
    createShort cexClock cexFs cexDefaultBg 59 ['s'] ['a'] ['b'] ['c'] ≠
      createShort cexClockTue cexFs cexDefaultBg 59 ['s'] ['a'] ['b'] ['c'] := by
  have h1 : bgVideoPath cexClock cexFs cexDefaultBg =
      some ("Monday_bg.mp4".toList) := by decide
  have h2 : bgVideoPath cexClockTue cexFs cexDefaultBg =
      some ("Tuesday_bg.mp4".toList) := by decide
  intro hEq
  rw [createShort, createShort, h1, h2] at hEq
  simp only [Option.some.injEq, Timeline.mk.injEq] at hEq
  exact absurd hEq.1 (by decide)

/-- C9 (amended: the engine is deterministic given the clock, and all
element timings, the final duration and the background trim are
clock-independent; but the date element's text and the background file
selection do depend on the current day, so complete timelines are not
byte-identical across clock changes): any two runs on identical section
texts — whatever their clocks, file systems and default backgrounds —
produce element-for-element identical `(start, duration, layer)` data,
the same final duration and the same background trim duration. -/
theorem timings_clock_independent (c1 c2 : Clock) (fs1 fs2 : List Char → Bool)
    (dbg1 dbg2 : List Char) (d : ℚ) (sign horo wealth health : List Char)
    (t1 t2 : Timeline)
    (hEq1 : createShort c1 fs1 dbg1 d sign horo wealth health = some t1)
    (hEq2 : createShort c2 fs2 dbg2 d sign horo wealth health = some t2) :
    t1.elements.map eltTiming = t2.elements.map eltTiming ∧
    t1.finalDuration = t2.finalDuration ∧ t1.bgDur = t2.bgDur := by
  cases hb1 : bgVideoPath c1 fs1 dbg1 with
  | none =>
    rw [createShort, hb1] at hEq1
    exact Option.noConfusion hEq1
  | some bg1 =>
    cases hb2 : bgVideoPath c2 fs2 dbg2 with
    | none =>
      rw [createShort, hb2] at hEq2
      exact Option.noConfusion hEq2
    | some bg2 =>
      rw [createShort, hb1] at hEq1
      rw [createShort, hb2] at hEq2
      simp only [Option.some.injEq] at hEq1 hEq2
      subst hEq1
      subst hEq2
      refine ⟨?_, rfl, rfl⟩
      simp [eltTiming, sectionElems, tailElems, headingElts, bodyElts]

/-- Witness for C9: two concrete runs with different clocks have
identical timing data. -/
theorem timings_clock_independent_witness :
    ∃ t1 t2,
      createShort cexClock cexFs cexDefaultBg 59 ['s'] ['a'] ['b'] ['c'] = some t1 ∧
      createShort cexClockTue cexFs cexDefaultBg 59 ['s'] ['a'] ['b'] ['c'] = some t2 ∧
      t1.elements.map eltTiming = t2.elements.map eltTiming := by
  cases hEq1 : createShort cexClock cexFs cexDefaultBg 59 ['s'] ['a'] ['b'] ['c'] with
  | none =>
    refine absurd hEq1 ?_
    rw [createShort,
      show bgVideoPath cexClock cexFs cexDefaultBg = some ("Monday_bg.mp4".toList)
        from by decide]
    simp
  | some t1 =>
    cases hEq2 : createShort cexClockTue cexFs cexDefaultBg 59 ['s'] ['a'] ['b'] ['c'] with
    | none =>
      refine absurd hEq2 ?_
      rw [createShort,
        show bgVideoPath cexClockTue cexFs cexDefaultBg = some ("Tuesday_bg.mp4".toList)
          from by decide]
      simp
    | some t2 =>
      exact ⟨t1, t2, rfl, rfl,
        (timings_clock_independent cexClock cexClockTue cexFs cexFs cexDefaultBg
          cexDefaultBg 59 ['s'] ['a'] ['b'] ['c'] t1 t2 hEq1 hEq2).1⟩

/-! ## Claims about composer overflow handling (C3) -/

lemma createShort_elements_drop (clock : Clock) (fileExists : List Char → Bool)
    (defaultBg : List Char) (d : ℚ) (sign horo wealth health : List Char)
    (t : Timeline)
    (hEq : createShort clock fileExists defaultBg d sign horo wealth health = some t) :
    t.elements.drop (5 + horoChunkCount horo wealth health) =
      tailElems wealth health
        (allocTimes horo.length wealth.length health.length).1
        (allocTimes horo.length wealth.length health.length).2.1
        (allocTimes horo.length wealth.length health.length).2.2
        (((allocTimes horo.length wealth.length health.length).1 +
          (allocTimes horo.length wealth.length health.length).2.1 +
          (allocTimes horo.length wealth.length health.length).2.2 : ℕ) : ℚ) := by
  cases hbv : bgVideoPath clock fileExists defaultBg with
  | none =>
    rw [createShort, hbv] at hEq
    exact Option.noConfusion hEq
  | some bg =>
    rw [createShort, hbv] at hEq
    simp only [Option.some.injEq] at hEq
    subst hEq
    apply List.drop_left'
    simp [sectionElems, headingElts, bodyElts, horoChunkCount]
    omega

/-- C3 (amended: the composer does NOT truncate the overflow of a
floor-clamped section — an over-budget section's chunks extend past its
allotted slice, and elements on the shared body-text layer can then
overlap in time; what does hold is that later sections' start times
never drift: everything after the horoscope section is a function of the
section texts' lengths and the later texts alone, placed at the fixed
allotted offsets): two runs whose horoscope texts have equal length —
however differently those texts chunk — produce identical wealth,
health and subscribe elements, laid out at the allotted offsets. -/
theorem composer_no_drift (clock : Clock) (fileExists : List Char → Bool)
    (defaultBg : List Char) (d : ℚ) (sign horoA horoB wealth health : List Char)
    (t1 t2 : Timeline)
    (hlen : horoA.length = horoB.length)
    (hEq1 : createShort clock fileExists defaultBg d sign horoA wealth health = some t1)
    (hEq2 : createShort clock fileExists defaultBg d sign horoB wealth health = some t2) :
    t1.elements.drop (5 + horoChunkCount horoA wealth health) =
      tailElems wealth health
        (allocTimes horoA.length wealth.length health.length).1
        (allocTimes horoA.length wealth.length health.length).2.1
        (allocTimes horoA.length wealth.length health.length).2.2
        (((allocTimes horoA.length wealth.length health.length).1 +
          (allocTimes horoA.length wealth.length health.length).2.1 +
          (allocTimes horoA.length wealth.length health.length).2.2 : ℕ) : ℚ) ∧
    t1.elements.drop (5 + horoChunkCount horoA wealth health) =
      t2.elements.drop (5 + horoChunkCount horoB wealth health) := by
  have hA := createShort_elements_drop clock fileExists defaultBg d sign horoA wealth
    health t1 hEq1
  have hB := createShort_elements_drop clock fileExists defaultBg d sign horoB wealth
    health t2 hEq2
  refine ⟨hA, ?_⟩
  rw [hA, hB, hlen]

/-- Witness for C3: equal-length horoscope texts `"ab"` and `"cd"`. -/
theorem composer_no_drift_witness :
    ∃ t1 t2,
      createShort cexClock cexFs cexDefaultBg 59 ['s'] ['a', 'b'] ['b'] ['c'] = some t1 ∧
      createShort cexClock cexFs cexDefaultBg 59 ['s'] ['c', 'd'] ['b'] ['c'] = some t2 ∧
      t1.elements.drop (5 + horoChunkCount ['a', 'b'] ['b'] ['c']) =
        t2.elements.drop (5 + horoChunkCount ['c', 'd'] ['b'] ['c']) := by
  cases hEq1 : createShort cexClock cexFs cexDefaultBg 59 ['s'] ['a', 'b'] ['b'] ['c'] with
  | none =>
    refine absurd hEq1 ?_
    rw [createShort,
      show bgVideoPath cexClock cexFs cexDefaultBg = some ("Monday_bg.mp4".toList)
        from by decide]
    simp
  | some t1 =>
    cases hEq2 : createShort cexClock cexFs cexDefaultBg 59 ['s'] ['c', 'd'] ['b'] ['c'] with
    | none =>
      refine absurd hEq2 ?_
      rw [createShort,
        show bgVideoPath cexClock cexFs cexDefaultBg = some ("Monday_bg.mp4".toList)
          from by decide]
      simp
    | some t2 =>
      exact ⟨t1, t2, rfl, rfl,
        (composer_no_drift cexClock cexFs cexDefaultBg 59 ['s'] ['a', 'b'] ['c', 'd']
          ['b'] ['c'] t1 t2 (by decide) hEq1 hEq2).2⟩

/-- C3 counterexample: a horoscope of 20 one-character lines allotted 20
seconds chunks as 9/9/2 lines lasting `9, 9, max(3, 2) = 3` seconds, so
its chunks end at 21, one second past the allotted slice end 20 — no
truncation happens — while the wealth section's first body chunk starts
at 20 on the same `TEXT_Y` layer and runs to 44: the intervals
`[18, 21)` and `[20, 44)` overlap on one visual layer. -/
theorem composer_overlap_cex :
    ((createShort cexClock cexFs cexDefaultBg 59 ['s'] c3Horo c3Wealth c3Health).map
        (fun t => (t.elements.get? 7, t.elements.get? 10))) =
      some (some ⟨['a', '\n', 'a'], 18, 3, TEXT_Y⟩,
            some ⟨List.replicate 35 'b' ++ '\n' :: List.replicate 11 'b', 20, 24, TEXT_Y⟩) ∧
    ((allocTimes c3Horo.length c3Wealth.length c3Health.length).1 : ℚ) < 18 + 3 ∧
    ((20 : ℚ) < 18 + 3) ∧ ((18 : ℚ) < 20 + 24) := by
  have hbg : bgVideoPath cexClock cexFs cexDefaultBg =
      some ("Monday_bg.mp4".toList) := by decide
  have halloc : allocTimes c3Horo.length c3Wealth.length c3Health.length =
      (20, 24, 12) := by decide
  refine ⟨?_, by rw [halloc]; norm_num, by norm_num, by norm_num⟩
  have hmk : mkChunks (wrappedLines c3Horo) =
      [List.replicate 9 ['a'], List.replicate 9 ['a'], List.replicate 2 ['a']] := by decide
  have hHoro : createTextChunks c3Horo 20 =
      [(List.intercalate ['\n'] (List.replicate 9 ['a']), 0, 9),
       (List.intercalate ['\n'] (List.replicate 9 ['a']), 9, 9),
       (['a', '\n', 'a'], 18, 3)] := by
    rw [createTextChunks, chunkLines, hmk]
    norm_num [timeChunksC]
    decide
  have hmkW : mkChunks (wrappedLines c3Wealth) =
      [[List.replicate 35 'b', List.replicate 11 'b']] := by decide
  have hWealth : createTextChunks c3Wealth 24 =
      [(List.replicate 35 'b' ++ '\n' :: List.replicate 11 'b', 0, 24)] := by
    rw [createTextChunks, chunkLines, hmkW]
    decide
  have hmkH : mkChunks (wrappedLines c3Health) = [[['c']]] := by decide
  have hHealth : createTextChunks c3Health 12 = [(['c'], 0, 12)] := by
    rw [createTextChunks, chunkLines, hmkH]
    decide
  rw [createShort, hbg]
  simp only [halloc]
  norm_num [sectionElems, tailElems, headingElts, bodyElts, hHoro, hWealth, hHealth]

/-! ## Claims about the chunking policy (C5, C6, C8) -/

lemma chunksOf9_nil (fuel : ℕ) : chunksOf9 fuel [] = [] := by
  cases fuel <;> rfl

lemma chunksOf9_ne_nil (fuel : ℕ) (ls : List (List Char)) (h : ls ≠ [])
    (hf : ls.length ≤ fuel) : chunksOf9 fuel ls ≠ [] := by
  cases fuel with
  | zero =>
    cases ls with
    | nil => exact absurd rfl h
    | cons c cs => simp at hf
  | succ n =>
    cases ls with
    | nil => exact absurd rfl h
    | cons c cs => simp [chunksOf9]

lemma ninePattern_chunksOf9 : ∀ (fuel : ℕ) (ls : List (List Char)), ls ≠ [] →
    ls.length ≤ fuel → NinePattern (chunksOf9 fuel ls) := by
  intro fuel
  induction fuel with
  | zero =>
    intro ls h hf
    cases ls with
    | nil => exact absurd rfl h
    | cons c cs => simp at hf
  | succ n ih =>
    intro ls h hf
    cases ls with
    | nil => exact absurd rfl h
    | cons c cs =>
      by_cases h9 : (c :: cs).length ≤ 9
      · have hdrop : (c :: cs).drop 9 = [] := List.drop_eq_nil_of_le h9
        rw [chunksOf9, hdrop, chunksOf9_nil]
        refine ⟨?_, ?_⟩ <;> simp [List.length_take]
      · push_neg at h9
        have hdrop : (c :: cs).drop 9 ≠ [] := by
          rw [Ne, List.drop_eq_nil_iff]
          omega
        have hlen : ((c :: cs).drop 9).length ≤ n := by
          simp only [List.length_drop]
          simp only [List.length_cons] at hf h9 ⊢
          omega
        obtain ⟨c2, rest, hcr⟩ :=
          List.exists_cons_of_ne_nil (chunksOf9_ne_nil n _ hdrop hlen)
        rw [chunksOf9, hcr]
        refine ⟨?_, ?_⟩
        · simp only [List.length_take, List.length_cons]
          simp only [List.length_cons] at h9
          omega
        · rw [← hcr]
          exact ih _ hdrop hlen

lemma chunksOf9_multi (fuel : ℕ) (ls : List (List Char)) (h9 : 9 < ls.length)
    (hf : ls.length ≤ fuel) :
    ∃ c1 c2 rest, chunksOf9 fuel ls = c1 :: c2 :: rest := by
  cases fuel with
  | zero => omega
  | succ n =>
    cases ls with
    | nil => simp at h9
    | cons c cs =>
      have hdrop : (c :: cs).drop 9 ≠ [] := by
        rw [Ne, List.drop_eq_nil_iff]
        omega
      have hlen : ((c :: cs).drop 9).length ≤ n := by
        simp only [List.length_drop]
        simp only [List.length_cons] at hf h9 ⊢
        omega
      obtain ⟨c2, rest, hcr⟩ :=
        List.exists_cons_of_ne_nil (chunksOf9_ne_nil n _ hdrop hlen)
      exact ⟨_, c2, rest, by rw [chunksOf9, hcr]⟩

lemma timeChunksC_contig (L S : ℚ) : ∀ (cs : List (List (List Char))) (t : ℚ),
    Contiguous t (timeChunksC L S t cs) := by
  intro cs
  induction cs with
  | nil => intro t; trivial
  | cons c rest ih => intro t; exact ⟨rfl, ih _⟩

lemma timeChunksC_durs (L S : ℚ) : ∀ (cs : List (List (List Char))) (t : ℚ),
    (timeChunksC L S t cs).map (fun x => x.2.2) =
      cs.map (fun c => max 3 ((c.length : ℚ) / L * S)) := by
  intro cs
  induction cs with
  | nil => intro t; rfl
  | cons c rest ih => intro t; simp [timeChunksC, ih]

/-- C5 (confirmed): the chunk-count policy by total line count `L` —
one chunk with the full section duration for `L ≤ 8`, a two-way split at
`L / 2` (integer division, smaller-or-equal half first) for
`8 < L ≤ 16`, 9-line chunks with a 1–9-line final remainder for
`L > 16`; in particular `L = 7` gives 1 chunk, `L = 10` gives sizes 5/5
and `L = 20` gives sizes 9/9/2. -/
theorem chunk_policy_thresholds (lines : List (List Char)) (S : ℚ) :
    (lines.length ≤ 8 → mkChunks lines = [lines] ∧
      chunkLines lines S = [(List.intercalate ['\n'] lines, 0, S)]) ∧
    (8 < lines.length → lines.length ≤ 16 →
      mkChunks lines =
        [lines.take (lines.length / 2), lines.drop (lines.length / 2)]) ∧
    (16 < lines.length → NinePattern (mkChunks lines)) ∧
    (mkChunks (List.replicate 7 ['a'])).length = 1 ∧
    (mkChunks (List.replicate 10 ['a'])).map List.length = [5, 5] ∧
    (mkChunks (List.replicate 20 ['a'])).map List.length = [9, 9, 2] := by
  refine ⟨?_, ?_, ?_, by decide, by decide, by decide⟩
  · intro h8
    have hmk : mkChunks lines = [lines] := by rw [mkChunks, if_pos h8]
    exact ⟨hmk, by rw [chunkLines, hmk]⟩
  · intro h8 h16
    rw [mkChunks, if_neg (by omega), if_pos h16]
  · intro h16
    rw [mkChunks, if_neg (by omega), if_neg (by omega)]
    apply ninePattern_chunksOf9
    · intro hnil
      rw [hnil] at h16
      simp at h16
    · exact le_refl _

/-- Witness for C5: the one-chunk branch at one line, and the nine-line
pattern at 20 lines. -/
theorem chunk_policy_thresholds_witness :
    (mkChunks [['a']] = [[['a']]] ∧
      chunkLines [['a']] 12 = [(List.intercalate ['\n'] [['a']], 0, 12)]) ∧
    NinePattern (mkChunks (List.replicate 20 ['a'])) :=
  ⟨(chunk_policy_thresholds [['a']] 12).1 (by decide),
   (chunk_policy_thresholds (List.replicate 20 ['a']) 12).2.2.1 (by decide)⟩

/-- C6 counterexample: a single one-line chunk of a section allotted 1
second receives 1 second — the code's single-chunk branch bypasses the
3-second floor, so `chunk.duration ≠ max(min_chunk_duration,
(count/L)·S)` when `S` is below the floor. -/
theorem chunk_single_no_floor_cex :
    chunkLines [['a']] 1 = [(['a'], 0, 1)] ∧
    max (3 : ℚ) ((1 : ℚ) / 1 * 1) = 3 ∧ ((1 : ℚ) ≠ 3) := by
  refine ⟨?_, by norm_num, by norm_num⟩
  rw [chunkLines, show mkChunks [['a']] = [[['a']]] from by decide]
  rfl

/-- C6 (amended: the duration formula
`max(min_chunk_duration, (count/L)·S)` holds for every chunk provided
the section duration `S` is at least the 3-second floor — as in every
in-program call, where `S ≥ 12`; a single chunk receives `S` exactly,
which the floor would otherwise raise for `S < 3`): for non-empty lines
and `S ≥ 3`, chunks run contiguously from offset 0, each starting where
its predecessor ended, and the duration list equals the proportional
formula over the chunk line counts. -/
theorem chunk_durations_proportional (lines : List (List Char)) (S : ℚ)
    (hne : lines ≠ []) (hS : 3 ≤ S) :
    Contiguous 0 (chunkLines lines S) ∧
    (chunkLines lines S).map (fun x => x.2.2) =
      (mkChunks lines).map
        (fun c => max 3 ((c.length : ℚ) /
          (((mkChunks lines).map List.length).sum : ℚ) * S)) := by
  rcases le_or_lt lines.length 8 with h8 | h8
  · have hmk : mkChunks lines = [lines] := by rw [mkChunks, if_pos h8]
    have hcl : chunkLines lines S = [(List.intercalate ['\n'] lines, 0, S)] := by
      rw [chunkLines, hmk]
    rw [hcl, hmk]
    refine ⟨⟨rfl, trivial⟩, ?_⟩
    have hlen : (lines.length : ℚ) ≠ 0 := by
      have h0 : lines.length ≠ 0 := fun hc => hne (List.length_eq_zero.mp hc)
      exact_mod_cast h0
    simp only [List.map_cons, List.map_nil, List.sum_cons, List.sum_nil, add_zero]
    rw [div_self hlen, one_mul, max_eq_right hS]
  · obtain ⟨c1, c2, rest, hmk⟩ : ∃ c1 c2 rest, mkChunks lines = c1 :: c2 :: rest := by
      rcases le_or_lt lines.length 16 with h16 | h16
      · exact ⟨_, _, [], by rw [mkChunks, if_neg (by omega), if_pos h16]⟩
      · rw [mkChunks, if_neg (by omega), if_neg (by omega)]
        exact chunksOf9_multi _ _ (by omega) (le_refl _)
    have hcl : chunkLines lines S =
        timeChunksC (((c1 :: c2 :: rest).map List.length).sum : ℚ) S 0
          (c1 :: c2 :: rest) := by
      rw [chunkLines, hmk]
    rw [hcl, hmk]
    exact ⟨timeChunksC_contig _ _ _ _, timeChunksC_durs _ _ _ _⟩

/-- Witness for C6 at one line and `S = 12`. -/
theorem chunk_durations_proportional_witness :
    Contiguous 0 (chunkLines [['a']] 12) :=
  (chunk_durations_proportional [['a']] 12 (by decide) (by norm_num)).1

/-- C8 counterexample: chunking the empty section text yields ONE chunk
— the empty-text chunk, covering the full 12-second slice — not zero
chunks with zero duration: `"\n".join([])` is `""` and the
`len(chunks) == 1` branch assigns it the whole section duration. -/
theorem empty_text_chunk_cex :
    createTextChunks [] 12 = [([], 0, 12)] ∧ createTextChunks [] 12 ≠ [] := by
  have h : createTextChunks [] 12 = [([], 0, 12)] := by
    rw [createTextChunks, show wrappedLines [] = [] from by decide, chunkLines,
      show mkChunks [] = [[]] from by decide]
    rfl
  refine ⟨h, ?_⟩
  rw [h]
  simp

/-- C8 (amended: empty section text yields exactly one chunk — an
empty-content chunk — that receives the full section duration; the
section still occupies its allotted slice of the timeline; this is
handled without error, not as zero chunks and zero duration): for every
section duration `S`, chunking the empty text produces the single chunk
`("", 0, S)`. -/
theorem empty_text_one_full_chunk (S : ℚ) :
    createTextChunks [] S = [([], 0, S)] := by
  rw [createTextChunks, show wrappedLines [] = [] from by decide, chunkLines,
    show mkChunks [] = [[]] from by decide]
  rfl

/-! ## Claim about the final composite duration (C10) -/

/-- C10 (confirmed): whenever a timeline is produced from a background
asset of positive duration, the composite's duration is exactly the
59-second target, the background clip is looped and trimmed to exactly
59 seconds, and the last overlay element is the 5-second subscribe block
starting when the three section slots end (at the sum of the three
allotted section durations) — so when that sum plus 5 falls short of 59
only background video and music fill the tail. -/
theorem final_duration_is_target (clock : Clock) (fileExists : List Char → Bool)
    (defaultBg : List Char) (d : ℚ) (sign horo wealth health : List Char)
    (t : Timeline) (hd : 0 < d)
    (hEq : createShort clock fileExists defaultBg d sign horo wealth health = some t) :
    t.finalDuration = 59 ∧ t.bgDur = 59 ∧
    t.elements.getLast? =
      some ⟨subText,
        (((allocTimes horo.length wealth.length health.length).1 +
          (allocTimes horo.length wealth.length health.length).2.1 +
          (allocTimes horo.length wealth.length health.length).2.2 : ℕ) : ℚ),
        5, CENTER_POS⟩ := by
  cases hbv : bgVideoPath clock fileExists defaultBg with
  | none =>
    rw [createShort, hbv] at hEq
    exact Option.noConfusion hEq
  | some bg =>
    rw [createShort, hbv] at hEq
    simp only [Option.some.injEq] at hEq
    subst hEq
    refine ⟨rfl, loopTrim_eq_target d 59 hd, ?_⟩
    simp only [tailElems, sectionElems]
    simp
    exact getLast?_deep _ _ _ _ _ _ _ _

/-- Witness for C10 with a 12-second background source. -/
theorem final_duration_is_target_witness :
    ∃ t, createShort cexClock cexFs cexDefaultBg 12 ['s'] ['a'] ['b'] ['c'] = some t ∧
      t.finalDuration = 59 ∧ t.bgDur = 59 := by
  cases hEq : createShort cexClock cexFs cexDefaultBg 12 ['s'] ['a'] ['b'] ['c'] with
  | none =>
    refine absurd hEq ?_
    rw [createShort,
      show bgVideoPath cexClock cexFs cexDefaultBg = some ("Monday_bg.mp4".toList)
        from by decide]
    simp
  | some t =>
    have h := final_duration_is_target cexClock cexFs cexDefaultBg 12 ['s'] ['a'] ['b']
      ['c'] t (by norm_num) hEq
    exact ⟨t, rfl, h.1, h.2.1⟩

/-! ## Claims about the line wrapper (C7) -/

@[simp] lemma sumLen_nil : sumLen [] = 0 := rfl

@[simp] lemma sumLen_cons (c : List Char) (l : List (List Char)) :
    sumLen (c :: l) = c.length + sumLen l := by
  simp [sumLen]

lemma sumLen_append (l1 l2 : List (List Char)) :
    sumLen (l1 ++ l2) = sumLen l1 + sumLen l2 := by
  simp [sumLen]

lemma sumLen_dropLast (l : List (List Char)) : sumLen l.dropLast ≤ sumLen l := by
  induction l with
  | nil => exact le_refl _
  | cons c rest ih =>
    cases rest with
    | nil => simp
    | cons r rs =>
      rw [List.dropLast_cons_of_ne_nil (by simp)]
      simp only [sumLen_cons]
      exact Nat.add_le_add_left ih _

lemma sumLen_dropTrailingWs (l : List (List Char)) :
    sumLen (dropTrailingWs l) ≤ sumLen l := by
  rw [dropTrailingWs]
  cases hl : l.getLast? with
  | none => exact le_refl _
  | some x =>
    by_cases hws : wsChunk x
    · simp only [hws, if_true]
      exact sumLen_dropLast l
    · simp [hws]

lemma greedyTake_bound (width : ℕ) : ∀ (chunks : List (List Char)) (curLen : ℕ),
    (greedyTake width curLen chunks).1 = [] ∨
      curLen + sumLen (greedyTake width curLen chunks).1 ≤ width := by
  intro chunks
  induction chunks with
  | nil => intro curLen; left; rfl
  | cons c rest ih =>
    intro curLen
    by_cases hfit : curLen + c.length ≤ width
    · have hg : (greedyTake width curLen (c :: rest)).1 =
          c :: (greedyTake width (curLen + c.length) rest).1 := by
        simp [greedyTake, hfit]
      rw [hg]
      right
      simp only [sumLen_cons]
      rcases ih (curLen + c.length) with h | h
      · rw [h]
        simpa using hfit
      · omega
    · left
      simp [greedyTake, hfit]

lemma sumLen_lineAndRest (width : ℕ) (chunks : List (List Char)) :
    sumLen (lineAndRest width chunks).1 ≤ width := by
  have hb := greedyTake_bound width chunks 0
  rw [lineAndRest]
  have hg : sumLen (greedyTake width 0 chunks).1 ≤ width := by
    rcases hb with h | h
    · rw [h]
      exact Nat.zero_le _
    · omega
  cases hrest : (greedyTake width 0 chunks).2 with
  | nil => exact hg
  | cons c tail =>
    by_cases hlong : width < c.length
    · simp only [hlong, if_true]
      rw [sumLen_append]
      simp only [sumLen_cons, sumLen_nil, List.length_take]
      omega
    · simp only [hlong, if_false]
      exact hg

lemma wrapStep_mem (width : ℕ) (rec : Bool → List (List Char) → List (List Char))
    (hrec : ∀ b ch l, l ∈ rec b ch → l.length ≤ width)
    (noLineYet : Bool) (cl : List (List Char)) (line : List Char)
    (hmem : line ∈ wrapStep width rec noLineYet cl) : line.length ≤ width := by
  cases cl with
  | nil => simp [wrapStep] at hmem
  | cons c1 rest1 =>
    simp only [wrapStep] at hmem
    by_cases hemp : (dropTrailingWs (lineAndRest width (c1 :: rest1)).1).isEmpty
    · rw [if_pos hemp] at hmem
      exact hrec _ _ _ hmem
    · rw [if_neg hemp] at hmem
      rcases List.mem_cons.mp hmem with h | h
      · subst h
        rw [List.length_flatten]
        calc (((dropTrailingWs (lineAndRest width (c1 :: rest1)).1).map
                List.length).sum : ℕ)
            = sumLen (dropTrailingWs (lineAndRest width (c1 :: rest1)).1) := rfl
          _ ≤ sumLen (lineAndRest width (c1 :: rest1)).1 := sumLen_dropTrailingWs _
          _ ≤ width := sumLen_lineAndRest _ _
      · exact hrec _ _ _ h

lemma wrapChunksAux_le (width : ℕ) : ∀ (fuel : ℕ) (noLineYet : Bool)
    (chunks : List (List Char)) (line : List Char),
    line ∈ wrapChunksAux width fuel noLineYet chunks → line.length ≤ width := by
  intro fuel
  induction fuel with
  | zero =>
    intro b ch l h
    simp [wrapChunksAux] at h
  | succ n ih =>
    intro b ch l h
    exact wrapStep_mem width _ (fun b2 ch2 l2 => ih b2 ch2 l2) _ _ _ h

lemma pyWrap_le (text line : List Char) (h : line ∈ pyWrap 35 text) :
    line.length ≤ 35 := by
  rw [pyWrap] at h
  exact wrapChunksAux_le 35 _ _ _ _ h

lemma splitLinesNL_ne_nil : ∀ (t : List Char), splitLinesNL t ≠ [] := by
  intro t
  cases t with
  | nil => simp [splitLinesNL]
  | cons c cs =>
    rw [splitLinesNL]
    by_cases hc : c = '\n'
    · simp [hc]
    · rw [if_neg hc]
      cases hsp : splitLinesNL cs with
      | nil => simp [consHead]
      | cons l ls => simp [consHead]

lemma consHead_append (c : Char) (l1 l2 : List (List Char)) (h : l1 ≠ []) :
    consHead c (l1 ++ l2) = consHead c l1 ++ l2 := by
  cases l1 with
  | nil => exact absurd rfl h
  | cons x xs => rfl

lemma splitLinesNL_append : ∀ (t1 t2 : List Char),
    splitLinesNL (t1 ++ '\n' :: t2) = splitLinesNL t1 ++ splitLinesNL t2 := by
  intro t1 t2
  induction t1 with
  | nil => rfl
  | cons c cs ih =>
    rw [List.cons_append, splitLinesNL, splitLinesNL]
    by_cases hc : c = '\n'
    · rw [if_pos hc, if_pos hc, ih]
      rfl
    · rw [if_neg hc, if_neg hc, ih,
        consHead_append c (splitLinesNL cs) (splitLinesNL t2) (splitLinesNL_ne_nil cs)]

/-- C7 counterexample: a 40-character whitespace-free token is NOT
emitted as its own over-long line — `textwrap.wrap`'s default
`break_long_words=True` breaks it at the 35-character width into a
35-character line and a 5-character line. -/
theorem wrapper_breaks_long_word_cex :
    wrappedLines (List.replicate 40 'a') =
      [List.replicate 35 'a', List.replicate 5 'a'] ∧
    wrappedLines (List.replicate 40 'a') ≠ [List.replicate 40 'a'] := by
  exact ⟨by decide, by decide⟩

/-- C7 (amended: the wrapper splits on existing newlines first and then
greedily wraps each segment at whitespace boundaries; but a
whitespace-free token longer than the width is NOT kept unbroken — the
default `break_long_words` behaviour breaks it at the width — so every
emitted line fits within the 35-character width; the wrapper is a total
function and never throws): splitting distributes over author newlines,
and every produced line has length at most 35. -/
theorem wrapper_lines_within_width (t1 t2 line : List Char) :
    wrappedLines (t1 ++ '\n' :: t2) = wrappedLines t1 ++ wrappedLines t2 ∧
    (line ∈ wrappedLines t1 → line.length ≤ 35) := by
  constructor
  · rw [wrappedLines, wrappedLines, wrappedLines, splitLinesNL_append,
      List.filter_append, List.flatMap_append]
  · intro hmem
    rw [wrappedLines] at hmem
    obtain ⟨seg, _, hline⟩ := List.mem_flatMap.mp hmem
    exact pyWrap_le seg line hline

/-- Witness for C7: the text `"ab\nc"` splits at its newline, and the
produced line `"ab"` fits the width. -/
theorem wrapper_lines_within_width_witness :
    wrappedLines (['a', 'b'] ++ '\n' :: ['c']) =
      wrappedLines ['a', 'b'] ++ wrappedLines ['c'] ∧
    (['a', 'b'] : List Char).length ≤ 35 :=
  ⟨(wrapper_lines_within_width ['a', 'b'] ['c'] ['a', 'b']).1,
   (wrapper_lines_within_width ['a', 'b'] ['c'] ['a', 'b']).2 (by decide)⟩
